import Mathlib

/-!
Verification of the render-and-preview pipeline of `src/handwrite_app.py`.

The Python worker (`WorkerThread.run`, lines 137-173) consumes a lazily
produced page sequence from the external `handwrite` renderer, emitting
`progressChanged`, `resultReady` and `errorOccurred` Qt signals.  We embed
one complete execution of `run` as a pure function from

  * the submitted text (a list of characters, as a Python string),
  * the pages the external generator successfully yields, in order,
  * an optional exception message the generator raises after those pages
    (pulling the next page either succeeds, ends the iteration, or raises),
  * a cancellation threshold: `is_cancelled` is set asynchronously, once,
    and only ever read by `run`; reads happen sequentially (one at the top
    of each loop iteration, one after the loop), so the flag's behaviour is
    exactly "reads numbered `0,1,2,...`; the flag is `True` from read `k`
    on", encoded as `cancelAt : Option Nat`.

to the ordered list of emitted signals.  Python's `int(chars / total * 100)`
(float division then truncation) is modelled as exact natural floor
division `chars * 100 / total`; the modelled quantities are far below any
range where IEEE double rounding could change the truncated result.

`PreviewManager` (lines 179-239), the consumer-side handlers
(`PreviewWidget.handle_preview_result`, lines 342-351), the submission
paths (`PreviewWidget.update_preview`, lines 302-324, and
`MainWindow.export_image`, lines 1404-1456) and the line-spacing adjustment
of `MainWindow.create_template` (lines 1482-1510) are embedded alongside.
-/

namespace HandwriteApp

/-- Rendered page images are opaque tokens. -/
abbrev Page := Nat

/-- The observable emissions of a worker: the `progressChanged`,
`resultReady` and `errorOccurred` signals. -/
inductive Ev where
  | progress : Nat → Ev
  | result : List Page → Ev
  | error : String → Ev
deriving DecidableEq, Repr

/-- Boolean test that one character list starts the other, used to build
Python's substring containment. -/
def isPrefixList : List Char → List Char → Bool
  | [], _ => true
  | _ :: _, [] => false
  | a :: as, b :: bs => a == b && isPrefixList as bs

/-- Python's `pat in s` on strings: `pat` occurs contiguously in `s`. -/
def containsSub (pat : List Char) : List Char → Bool
  | [] => pat.isEmpty
  | b :: bs => isPrefixList pat (b :: bs) || containsSub pat bs

/-- The clarified diagnostic the worker substitutes for the known
line-spacing/font-size error pattern (line 172). -/
def clarifiedMsg : String := "字体大小与行间距设置不合理。请确保行间距大于字体大小。"

/-- Lines 169-172: the `except` block's message rewriting.  The raw message
is replaced by `clarifiedMsg` exactly when it contains both `"font.size"`
and `"line_spacing"`. -/
def transformError (m : String) : String :=
  if containsSub "font.size".toList m.toList &&
     containsSub "line_spacing".toList m.toList then clarifiedMsg else m

/-- Line 143: the fixed placeholder substituted for empty input text. -/
def placeholderText : List Char := "预览文本示例".toList

/-- Lines 142-143: `if not self.text: self.text = "预览文本示例"`. -/
def effText (text : List Char) : List Char :=
  if text = [] then placeholderText else text

/-- Line 150: `progress_step = max(1, text_length // 100)`. -/
def progressStep (textLength : Nat) : Nat := max 1 (textLength / 100)

/-- Line 161: `min(95, int(chars_processed / text_length * 100))`. -/
def progVal (chars textLength : Nat) : Nat := min 95 (chars * 100 / textLength)

/-- The value the `is_cancelled` flag has at its `readIdx`-th read:
`cancelAt = some k` means the single asynchronous `cancel()` call lands
before the `k`-th read; `none` means `cancel()` is never called. -/
def isCancelled (cancelAt : Option Nat) (readIdx : Nat) : Bool :=
  match cancelAt with
  | none => false
  | some k => decide (k ≤ readIdx)

/-- Lines 153-166: the page-consumption loop and the post-loop completion
check.  Each iteration first pulls the next page (which may raise — handled
by the surrounding `try`, lines 168-173 — or end the iteration), then reads
`is_cancelled` (breaking without further emission if set; the subsequent
`if not self.is_cancelled` re-read also sees the flag set, since the flag
is never cleared), then appends the page, advances `chars_processed` by
`progress_step` and emits the capped progress value.  After normal
exhaustion, the flag is read once more; if clear, `100` and the result
list are emitted. -/
def runLoop (tl step : Nat) (cancelAt : Option Nat) :
    List Page → Option String → Nat → Nat → List Page → List Ev
  | [], exn, _chars, readIdx, acc =>
    match exn with
    | some m => [Ev.error (transformError m)]
    | none =>
      if isCancelled cancelAt readIdx then []
      else [Ev.progress 100, Ev.result acc]
  | p :: rest, exn, chars, readIdx, acc =>
    if isCancelled cancelAt readIdx then []
    else
      Ev.progress (progVal (chars + step) tl) ::
        runLoop tl step cancelAt rest exn (chars + step) (readIdx + 1) (acc ++ [p])

namespace WorkerThread

/-- One complete execution of `WorkerThread.run` (lines 137-173), as the
list of emitted signals. -/
def run (text : List Char) (pages : List Page) (exn : Option String)
    (cancelAt : Option Nat) : List Ev :=
  runLoop (effText text).length (progressStep (effText text).length)
    cancelAt pages exn 0 0 []

end WorkerThread

/-- The progress values among a signal list, in emission order. -/
def progressValues (evs : List Ev) : List Nat :=
  evs.filterMap fun e =>
    match e with
    | Ev.progress v => some v
    | _ => none

/-- Whether a signal is terminal (`resultReady` or `errorOccurred`). -/
def isTerminal : Ev → Bool
  | Ev.progress _ => false
  | Ev.result _ => true
  | Ev.error _ => true

/-- Whether a signal is a `resultReady` emission. -/
def isResult : Ev → Bool
  | Ev.result _ => true
  | _ => false

/-- Whether a signal is an `errorOccurred` emission. -/
def isError : Ev → Bool
  | Ev.error _ => true
  | _ => false

/-- Number of loop iterations actually executed: the page list is consumed
until it is exhausted or until the flag read succeeds. -/
def cutoff (cancelAt : Option Nat) (readIdx n : Nat) : Nat :=
  match cancelAt with
  | none => n
  | some k => min (k - readIdx) n

/-- The block a run emits after its per-iteration progress emissions. -/
def tailEvents (pages : List Page) (exn : Option String)
    (cancelAt : Option Nat) : List Ev :=
  if cutoff cancelAt 0 pages.length < pages.length then []
  else match exn with
    | some m => [Ev.error (transformError m)]
    | none =>
      if isCancelled cancelAt pages.length then []
      else [Ev.progress 100, Ev.result pages]

/-- The outcome `PreviewWidget.handle_preview_result` routes a delivered
result to. -/
inductive PreviewOutcome where
  | accepted : List Page → PreviewOutcome
  | errored : String → PreviewOutcome
deriving DecidableEq, Repr

/-- Embedding of `PreviewWidget.handle_preview_result` (lines 342-351): an
empty image list is routed to the error handler with the fixed "no preview
produced" message; a non-empty one is accepted into the preview cache. -/
def handle_preview_result (images : List Page) : PreviewOutcome :=
  if images.isEmpty then
    PreviewOutcome.errored "未能生成预览图像，可能是参数设置不合理"
  else PreviewOutcome.accepted images

/-- The observable state of one `WorkerThread` object: whether the QThread
is running and its `is_cancelled` flag (lines 131-135, 175-177). -/
structure Worker where
  running : Bool
  is_cancelled : Bool
deriving DecidableEq, Repr

/-- Lines 304-307 of `PreviewWidget.update_preview`: the previously stored
worker after the `if self.worker and self.worker.isRunning():
self.worker.cancel()` step (`cancel()` sets `is_cancelled`, line 177). -/
def update_preview_oldWorker (prev : Option Worker) : Option Worker :=
  match prev with
  | some w => if w.running then some { w with is_cancelled := true } else some w
  | none => none

/-- Embedding of `PreviewWidget.update_preview` (lines 302-324): cancel a
running previous worker, then create and start a fresh one.  The pair is
(previous worker after the cancellation step, newly started worker). -/
def update_preview (prev : Option Worker) : Option Worker × Worker :=
  (update_preview_oldWorker prev, { running := true, is_cancelled := false })

/-- Embedding of `MainWindow.export_image` (lines 1404-1456): it creates
and starts a new worker (`self.worker_thread = WorkerThread(...)`, line
1407) with no cancellation signal to any previously running worker — the
previous worker object is simply overwritten. -/
def export_image_submit (prev : Option Worker) : Option Worker × Worker :=
  (prev, { running := true, is_cancelled := false })

/-- The preview-cache state of `PreviewManager` (lines 179-239; the
throttle/caching fields do not interact with the paging operations). -/
structure PreviewManager where
  pages : List Page
  current_page : Nat
deriving DecidableEq, Repr

namespace PreviewManager

/-- Constructor state (lines 183-184): empty page list, index 0. -/
def init : PreviewManager := { pages := [], current_page := 0 }

/-- Lines 203-205. -/
def set_pages (pm : PreviewManager) (ps : List Page) : PreviewManager :=
  { pm with pages := ps, current_page := 0 }

/-- Lines 207-210: `pages[current_page]` when the list is non-empty,
`None` otherwise (indexing modelled totally; the reachability invariant
keeps the index in range, so the default is never taken). -/
def get_current_page (pm : PreviewManager) : Option Page :=
  if pm.pages.isEmpty then none else some (pm.pages.getD pm.current_page 0)

/-- Lines 212-216: Python's `current_page < len(pages) - 1` agrees with
the truncated Nat subtraction here for every `len(pages)`, since
`current_page ≥ 0`. -/
def next_page (pm : PreviewManager) : PreviewManager × Bool :=
  if pm.current_page < pm.pages.length - 1 then
    ({ pm with current_page := pm.current_page + 1 }, true)
  else (pm, false)

/-- Lines 218-222. -/
def prev_page (pm : PreviewManager) : PreviewManager × Bool :=
  if 0 < pm.current_page then
    ({ pm with current_page := pm.current_page - 1 }, true)
  else (pm, false)

/-- Lines 224-229: `page_num` is a Python int and may be negative. -/
def go_to_page (pm : PreviewManager) (page_num : Int) : PreviewManager × Bool :=
  if 0 ≤ page_num ∧ page_num < pm.pages.length then
    ({ pm with current_page := page_num.toNat }, true)
  else (pm, false)

/-- States reachable from the freshly constructed manager by any sequence
of paging operations. -/
inductive Reachable : PreviewManager → Prop where
  | init : Reachable init
  | set_pages (pm : PreviewManager) (ps : List Page) :
      Reachable pm → Reachable (pm.set_pages ps)
  | next_page (pm : PreviewManager) :
      Reachable pm → Reachable pm.next_page.1
  | prev_page (pm : PreviewManager) :
      Reachable pm → Reachable pm.prev_page.1
  | go_to_page (pm : PreviewManager) (n : Int) :
      Reachable pm → Reachable (pm.go_to_page n).1

end PreviewManager

/-- The index invariant: index 0 on an empty page list, otherwise a valid
index. -/
def PMInv (pm : PreviewManager) : Prop :=
  (pm.pages = [] ∧ pm.current_page = 0) ∨ pm.current_page < pm.pages.length

/-- Embedding of the line-spacing adjustment of
`MainWindow.create_template` (lines 1482-1510): when the configured line spacing does not exceed the font
size, it is replaced by `int(font_size * 1.5)`; for the UI's integer font
sizes `font_size * 1.5` is exact in floating point, so the truncation
equals `3 * font_size / 2` in natural-number division. -/
def adjust_line_spacing (font_size line_spacing : Nat) : Nat :=
  if line_spacing ≤ font_size then 3 * font_size / 2 else line_spacing

theorem cutoff_none (readIdx n : Nat) : cutoff none readIdx n = n := rfl

theorem cutoff_some (k readIdx n : Nat) :
    cutoff (some k) readIdx n = min (k - readIdx) n := rfl

theorem isCancelled_none (readIdx : Nat) : isCancelled none readIdx = false := rfl

theorem isCancelled_some (k readIdx : Nat) :
    isCancelled (some k) readIdx = decide (k ≤ readIdx) := rfl

/-- Closed form of `runLoop`: a prefix of progress emissions, one per
executed iteration, followed by (nothing | the error | `100` + result)
according to how the loop ended. -/
theorem runLoop_eq (tl step : Nat) (cancelAt : Option Nat) :
    ∀ (pages : List Page) (exn : Option String) (chars readIdx : Nat)
      (acc : List Page),
    runLoop tl step cancelAt pages exn chars readIdx acc =
      (List.range (cutoff cancelAt readIdx pages.length)).map
        (fun i => Ev.progress (progVal (chars + (i + 1) * step) tl))
      ++ (if cutoff cancelAt readIdx pages.length < pages.length then []
          else match exn with
            | some m => [Ev.error (transformError m)]
            | none =>
              if isCancelled cancelAt (readIdx + pages.length) then []
              else [Ev.progress 100, Ev.result (acc ++ pages)]) := by
  intro pages
  induction pages with
  | nil =>
    intro exn chars readIdx acc
    have hcut : cutoff cancelAt readIdx 0 = 0 := by
      cases cancelAt <;> simp [cutoff_none, cutoff_some]
    simp only [runLoop, List.length_nil, hcut, List.range_zero, List.map_nil,
      List.nil_append, Nat.lt_irrefl, if_false, Nat.add_zero, List.append_nil]
  | cons p rest ih =>
    intro exn chars readIdx acc
    by_cases hc : isCancelled cancelAt readIdx = true
    · -- flag already set at the top-of-loop read: break, nothing emitted
      obtain ⟨k, hk⟩ : ∃ k, cancelAt = some k := by
        cases cancelAt with
        | none => simp [isCancelled_none] at hc
        | some k => exact ⟨k, rfl⟩
      have hkle : k ≤ readIdx := by
        simpa [hk, isCancelled_some] using hc
      have hcut : cutoff cancelAt readIdx (rest.length + 1) = 0 := by
        simp [hk, cutoff_some, Nat.sub_eq_zero_of_le hkle]
      simp [runLoop, hc, hcut]
    · -- flag clear: one more iteration, then the inductive hypothesis
      have hstep := ih exn (chars + step) (readIdx + 1) (acc ++ [p])
      have hcut : cutoff cancelAt readIdx (rest.length + 1) =
          cutoff cancelAt (readIdx + 1) rest.length + 1 := by
        cases cancelAt with
        | none => simp [cutoff_none]
        | some k =>
          have hlt : readIdx < k := by
            by_contra hle
            exact hc (by simp [isCancelled_some, Nat.le_of_not_lt hle])
          simp only [cutoff_some]
          omega
      have hread : readIdx + (rest.length + 1) = (readIdx + 1) + rest.length := by
        omega
      have htailfun :
          ((fun i => Ev.progress (progVal (chars + (i + 1) * step) tl)) ∘
            Nat.succ) =
          (fun i => Ev.progress (progVal (chars + step + (i + 1) * step) tl)) := by
        funext i
        simp only [Function.comp_apply, Nat.succ_eq_add_one]
        congr 2
        ring
      simp only [runLoop, hc, if_false, hstep, List.length_cons, hcut, hread,
        Bool.false_eq_true, Nat.add_lt_add_iff_right, List.range_succ_eq_map,
        List.map_cons, List.map_map, List.cons_append, Nat.zero_add, one_mul,
        htailfun]
      cases exn with
      | some m => simp
      | none => simp [List.append_assoc]

/-- Specialisation of `runLoop_eq` to the actual entry state of
`WorkerThread.run` (`chars = 0`, first flag read, empty result buffer). -/
theorem run_eq (text : List Char) (pages : List Page) (exn : Option String)
    (cancelAt : Option Nat) :
    WorkerThread.run text pages exn cancelAt =
      (List.range (cutoff cancelAt 0 pages.length)).map
        (fun i => Ev.progress
          (progVal ((i + 1) * progressStep (effText text).length)
            (effText text).length))
      ++ (if cutoff cancelAt 0 pages.length < pages.length then []
          else match exn with
            | some m => [Ev.error (transformError m)]
            | none =>
              if isCancelled cancelAt pages.length then []
              else [Ev.progress 100, Ev.result pages]) := by
  have h := runLoop_eq (effText text).length (progressStep (effText text).length)
    cancelAt pages exn 0 0 []
  simpa [WorkerThread.run, Nat.zero_add] using h

/-- Intermediate progress values are capped at 95 (the `min(95, ...)` of
line 161). -/
theorem progVal_le (chars tl : Nat) : progVal chars tl ≤ 95 :=
  Nat.min_le_left _ _

/-- The progress formula is monotone in the character counter. -/
theorem progVal_mono (tl : Nat) {c1 c2 : Nat} (h : c1 ≤ c2) :
    progVal c1 tl ≤ progVal c2 tl :=
  min_le_min (Nat.le_refl 95) (Nat.div_le_div_right (Nat.mul_le_mul_right _ h))

/-- After the empty-text substitution the text is never empty. -/
theorem effText_length_pos (text : List Char) : 0 < (effText text).length := by
  unfold effText
  split
  · decide
  · next h => exact List.length_pos.mpr h

/-- The `max(1, _)` keeps the step positive. -/
theorem progressStep_pos (n : Nat) : 0 < progressStep n :=
  Nat.lt_of_lt_of_le Nat.one_pos (le_max_left 1 _)

theorem progressValues_append (l1 l2 : List Ev) :
    progressValues (l1 ++ l2) = progressValues l1 ++ progressValues l2 :=
  List.filterMap_append l1 l2 _

theorem progressValues_map_progress (v : Nat → Nat) (l : List Nat) :
    progressValues (l.map fun i => Ev.progress (v i)) = l.map v := by
  induction l with
  | nil => rfl
  | cons a l ih => simp [progressValues, List.filterMap_cons] at ih ⊢; exact ih

/-- The emitted progress values of one task: one capped value per executed
iteration, then `100` exactly on uncancelled, exception-free completion. -/
theorem progressValues_run (text : List Char) (pages : List Page)
    (exn : Option String) (cancelAt : Option Nat) :
    progressValues (WorkerThread.run text pages exn cancelAt) =
      (List.range (cutoff cancelAt 0 pages.length)).map
        (fun i => progVal ((i + 1) * progressStep (effText text).length)
          (effText text).length)
      ++ (if exn = none ∧ isCancelled cancelAt pages.length = false
          then [100] else []) := by
  rw [run_eq, progressValues_append, progressValues_map_progress]
  congr 1
  rcases cancelAt with _ | k
  · -- never cancelled: the loop always completes
    simp only [cutoff_none, Nat.lt_irrefl, if_false, isCancelled_none]
    cases exn with
    | some m => simp [progressValues]
    | none => simp [progressValues]
  · by_cases hk : k < pages.length
    · -- flag observed at a loop-top read: loop broken, no terminal block
      have hcut : cutoff (some k) 0 pages.length = k := by
        simp [cutoff_some, Nat.min_eq_left (Nat.le_of_lt hk)]
      have hcanc : isCancelled (some k) pages.length = true := by
        simp [isCancelled_some, Nat.le_of_lt hk]
      simp [hcut, hk, hcanc, progressValues]
    · -- loop never broken
      have hcut : cutoff (some k) 0 pages.length = pages.length := by
        simp [cutoff_some, Nat.min_eq_right (Nat.le_of_not_lt hk)]
      simp only [hcut, Nat.lt_irrefl, if_false]
      cases exn with
      | some m => simp [progressValues]
      | none =>
        by_cases hn : isCancelled (some k) pages.length = true
        · simp [hn, progressValues]
        · have hn' : isCancelled (some k) pages.length = false := by
            simpa using hn
          simp [hn', progressValues]

-- sanity checks of the embedding on concrete executions (cf. §8 scenarios)
example : WorkerThread.run ['h', 'i'] [10, 20] none none =
    [Ev.progress 50, Ev.progress 95, Ev.progress 100, Ev.result [10, 20]] := by
  decide

example : WorkerThread.run ['h', 'i'] [10, 20] none (some 1) =
    [Ev.progress 50] := by decide

example : WorkerThread.run ['h', 'i'] [] (some "boom") none =
    [Ev.error "boom"] := by decide

example : WorkerThread.run [] [7] none none =
    [Ev.progress 16, Ev.progress 100, Ev.result [7]] := by decide

/-- C1: for every render task (any text, any page sequence the renderer
yields, any exception, any moment at which `cancel()` may land), the
progress values emitted by `WorkerThread.run` are bounded by 100 and
non-decreasing; every value other than the final 100 is capped at 95; and
100 is emitted exactly once, as the last progress value, exactly when the
page-consumption loop finishes with no exception and with the cancellation
flag never observed set (the flag is set once and never cleared, so the
post-loop read `isCancelled cancelAt pages.length` is `false` iff no read
of the flag during the task returned `true`). -/
theorem spec_C1 (text : List Char) (pages : List Page) (exn : Option String)
    (cancelAt : Option Nat) :
    (∀ v ∈ progressValues (WorkerThread.run text pages exn cancelAt), v ≤ 100)
    ∧ List.Chain' (· ≤ ·)
        (progressValues (WorkerThread.run text pages exn cancelAt))
    ∧ (∀ v ∈ progressValues (WorkerThread.run text pages exn cancelAt),
        v = 100 ∨ v ≤ 95)
    ∧ (progressValues (WorkerThread.run text pages exn cancelAt)).count 100 =
        (if exn = none ∧ isCancelled cancelAt pages.length = false
         then 1 else 0)
    ∧ (exn = none ∧ isCancelled cancelAt pages.length = false →
        (progressValues (WorkerThread.run text pages exn cancelAt)).getLast? =
          some 100) := by
  rw [progressValues_run]
  set tl := (effText text).length with htl
  set step := progressStep tl with hstep
  set m := cutoff cancelAt 0 pages.length with hm
  set L := (List.range m).map (fun i => progVal ((i + 1) * step) tl) with hLdef
  set T := (if exn = none ∧ isCancelled cancelAt pages.length = false
            then ([100] : List Nat) else []) with hTdef
  have hL95 : ∀ v ∈ L, v ≤ 95 := by
    intro v hv
    rw [hLdef, List.mem_map] at hv
    obtain ⟨i, _, rfl⟩ := hv
    exact progVal_le _ _
  refine ⟨?_, ?_, ?_, ?_, ?_⟩
  · intro v hv
    rcases List.mem_append.mp hv with h | h
    · exact Nat.le_trans (hL95 v h) (by norm_num)
    · by_cases hc : exn = none ∧ isCancelled cancelAt pages.length = false
      · rw [hTdef, if_pos hc] at h
        simp only [List.mem_singleton] at h
        omega
      · rw [hTdef, if_neg hc] at h
        exact absurd h (List.not_mem_nil v)
  · apply List.Pairwise.chain'
    apply List.pairwise_append.mpr
    refine ⟨?_, ?_, ?_⟩
    · exact (List.pairwise_lt_range m).map _
        (fun a b hab => progVal_mono tl (Nat.mul_le_mul_right step (by omega)))
    · rw [hTdef]
      split <;> simp
    · intro a ha b hb
      have hb100 : b = 100 := by
        rw [hTdef] at hb
        rcases Decidable.em
            (exn = none ∧ isCancelled cancelAt pages.length = false) with hc | hc
        · rw [if_pos hc] at hb; simpa using hb
        · rw [if_neg hc] at hb; exact absurd hb (List.not_mem_nil b)
      rw [hb100]
      exact Nat.le_trans (hL95 a ha) (by norm_num)
  · intro v hv
    rcases List.mem_append.mp hv with h | h
    · exact Or.inr (hL95 v h)
    · rw [hTdef] at h
      rcases Decidable.em
          (exn = none ∧ isCancelled cancelAt pages.length = false) with hc | hc
      · rw [if_pos hc] at h
        exact Or.inl (by simpa using h)
      · rw [if_neg hc] at h
        exact absurd h (List.not_mem_nil v)
  · rw [List.count_append]
    have hL0 : L.count 100 = 0 :=
      List.count_eq_zero.mpr (fun h => by have := hL95 _ h; omega)
    rw [hL0]
    rw [hTdef]
    rcases Decidable.em
        (exn = none ∧ isCancelled cancelAt pages.length = false) with hc | hc
    · rw [if_pos hc, if_pos hc]; rfl
    · rw [if_neg hc, if_neg hc]; rfl
  · intro hc
    have hT : T = [100] := by rw [hTdef, if_pos hc]
    rw [hT, List.getLast?_concat]

/-- Witness for C1 at a concrete execution: text `"hi"`, two pages, no
exception, no cancellation. -/
theorem spec_C1_witness :
    (progressValues (WorkerThread.run ['h', 'i'] [10, 20] none none)).count 100
      = 1
    ∧ (progressValues
        (WorkerThread.run ['h', 'i'] [10, 20] none none)).getLast? =
        some 100 := by
  refine ⟨?_, (spec_C1 ['h', 'i'] [10, 20] none none).2.2.2.2 ⟨rfl, rfl⟩⟩
  have h := (spec_C1 ['h', 'i'] [10, 20] none none).2.2.2.1
  simpa [isCancelled_none] using h

/-- C10: the progress computation of `WorkerThread.run` is division-safe:
after the empty-text placeholder substitution the text length is at least 1
and `progress_step = max(1, text_length // 100)` is at least 1, so neither
`text_length // 100` nor `chars_processed / text_length` divides by a
problematic zero (the former has the constant divisor 100; the latter's
divisor is the positive text length). -/
theorem spec_C10 (text : List Char) :
    1 ≤ (effText text).length ∧ 1 ≤ progressStep (effText text).length :=
  ⟨effText_length_pos text, progressStep_pos _⟩

/-- If the flag is never observed set at a loop-top read, every iteration
executes. -/
theorem cutoff_full (cancelAt : Option Nat) (n : Nat)
    (h : ∀ i, i < n → isCancelled cancelAt i = false) :
    cutoff cancelAt 0 n = n := by
  cases cancelAt with
  | none => rfl
  | some k =>
    have hnk : n ≤ k := by
      by_contra hlt
      have hk := h k (by omega)
      simp [isCancelled_some] at hk
    simp [cutoff_some, Nat.min_eq_right hnk]

/-- The map part of the closed form contains only progress emissions. -/
theorem mem_loopPart_progress {tl step m : Nat} {e : Ev}
    (h : e ∈ (List.range m).map
      (fun i => Ev.progress (progVal ((i + 1) * step) tl))) :
    ∃ v, e = Ev.progress v ∧ v ≤ 95 := by
  rw [List.mem_map] at h
  obtain ⟨i, _, rfl⟩ := h
  exact ⟨_, rfl, progVal_le _ _⟩

/-- Restatement of `run_eq` with the terminal block folded into
`tailEvents`. -/
theorem run_eq' (text : List Char) (pages : List Page) (exn : Option String)
    (cancelAt : Option Nat) :
    WorkerThread.run text pages exn cancelAt =
      (List.range (cutoff cancelAt 0 pages.length)).map
        (fun i => Ev.progress
          (progVal ((i + 1) * progressStep (effText text).length)
            (effText text).length))
      ++ tailEvents pages exn cancelAt := by
  rw [tailEvents.eq_def]
  exact run_eq text pages exn cancelAt

theorem tailEvents_broken {pages : List Page} {cancelAt : Option Nat}
    (exn : Option String) (h : cutoff cancelAt 0 pages.length < pages.length) :
    tailEvents pages exn cancelAt = [] := by
  simp [tailEvents, h]

theorem tailEvents_error {pages : List Page} {cancelAt : Option Nat}
    (m : String) (h : ¬ cutoff cancelAt 0 pages.length < pages.length) :
    tailEvents pages (some m) cancelAt = [Ev.error (transformError m)] := by
  simp [tailEvents, h]

theorem tailEvents_lateCancel {pages : List Page} {cancelAt : Option Nat}
    (h : ¬ cutoff cancelAt 0 pages.length < pages.length)
    (hc : isCancelled cancelAt pages.length = true) :
    tailEvents pages none cancelAt = [] := by
  simp [tailEvents, h, hc]

theorem tailEvents_success {pages : List Page} {cancelAt : Option Nat}
    (h : ¬ cutoff cancelAt 0 pages.length < pages.length)
    (hc : isCancelled cancelAt pages.length = false) :
    tailEvents pages none cancelAt =
      [Ev.progress 100, Ev.result pages] := by
  simp [tailEvents, h, hc]

/-- A broken loop means the flag was observed at a top-of-loop read, so
the (monotone) flag is still set at the post-loop read. -/
theorem isCancelled_of_broken {cancelAt : Option Nat} {n : Nat}
    (h : cutoff cancelAt 0 n < n) : isCancelled cancelAt n = true := by
  cases cancelAt with
  | none => rw [cutoff_none] at h; exact absurd h (Nat.lt_irrefl n)
  | some k =>
    rw [cutoff_some] at h
    have hk : k < n := by omega
    simp only [isCancelled_some, decide_eq_true_eq]
    omega

/-- C2: each run of `WorkerThread.run` produces exactly one of `{one
resultReady, one errorOccurred, (on cancellation) neither}`: the two
terminal channels fire at most once in total; every non-final emission is
a progress emission, so a terminal emission, when present, comes after
every progress emission; a generator exception with the loop not broken
first is converted into exactly one `errorOccurred` (and no result)
instead of escaping; an uncancelled exception-free run emits exactly one
`resultReady` (and no error); and a cancelled run — flag observed at a
read, with no exception raised before it — emits neither. -/
theorem spec_C2 (text : List Char) (pages : List Page) (exn : Option String)
    (cancelAt : Option Nat) :
    ((WorkerThread.run text pages exn cancelAt).filter
        (fun e => isResult e)).length +
      ((WorkerThread.run text pages exn cancelAt).filter
        (fun e => isError e)).length ≤ 1
    ∧ (∀ e ∈ (WorkerThread.run text pages exn cancelAt).dropLast,
        isTerminal e = false)
    ∧ (∀ m, exn = some m →
        (∀ i, i < pages.length → isCancelled cancelAt i = false) →
        (WorkerThread.run text pages exn cancelAt).filter
          (fun e => isError e) = [Ev.error (transformError m)]
        ∧ (WorkerThread.run text pages exn cancelAt).filter
          (fun e => isResult e) = [])
    ∧ (exn = none → isCancelled cancelAt pages.length = false →
        (WorkerThread.run text pages exn cancelAt).filter
          (fun e => isResult e) = [Ev.result pages]
        ∧ (WorkerThread.run text pages exn cancelAt).filter
          (fun e => isError e) = [])
    ∧ (exn = none → isCancelled cancelAt pages.length = true →
        (WorkerThread.run text pages exn cancelAt).filter
          (fun e => isResult e) = []
        ∧ (WorkerThread.run text pages exn cancelAt).filter
          (fun e => isError e) = [])
    ∧ (cutoff cancelAt 0 pages.length < pages.length →
        (WorkerThread.run text pages exn cancelAt).filter
          (fun e => isResult e) = []
        ∧ (WorkerThread.run text pages exn cancelAt).filter
          (fun e => isError e) = []) := by
  rw [run_eq']
  set tl := (effText text).length with htl
  set step := progressStep tl with hstep
  set L := (List.range (cutoff cancelAt 0 pages.length)).map
    (fun i => Ev.progress (progVal ((i + 1) * step) tl)) with hLdef
  have hLres : L.filter (fun e => isResult e) = [] := by
    rw [List.filter_eq_nil_iff]
    intro e he
    obtain ⟨v, rfl, -⟩ := mem_loopPart_progress (hLdef ▸ he)
    simp [isResult]
  have hLerr : L.filter (fun e => isError e) = [] := by
    rw [List.filter_eq_nil_iff]
    intro e he
    obtain ⟨v, rfl, -⟩ := mem_loopPart_progress (hLdef ▸ he)
    simp [isError]
  have hLdrop : ∀ e ∈ L.dropLast, isTerminal e = false := by
    intro e he
    obtain ⟨v, rfl, -⟩ :=
      mem_loopPart_progress (hLdef ▸ List.IsPrefix.subset
        ( List.dropLast_prefix L) he)
    rfl
  have hLterm : ∀ e ∈ L, isTerminal e = false := by
    intro e he
    obtain ⟨v, rfl, -⟩ := mem_loopPart_progress (hLdef ▸ he)
    rfl
  by_cases hcut : cutoff cancelAt 0 pages.length < pages.length
  · -- the flag was observed at a loop-top read: the loop broke
    rw [tailEvents_broken exn hcut, List.append_nil]
    refine ⟨?_, hLdrop, ?_, ?_, ?_, ?_⟩
    · rw [hLres, hLerr]
      simp
    · intro m _ hnc
      exact absurd (cutoff_full cancelAt pages.length hnc) (by omega)
    · intro _ hfalse
      rw [isCancelled_of_broken hcut] at hfalse
      exact absurd hfalse (by decide)
    · intro _ _
      exact ⟨hLres, hLerr⟩
    · intro _
      exact ⟨hLres, hLerr⟩
  · rcases exn with _ | m
    · by_cases hcanc : isCancelled cancelAt pages.length = true
      · rw [tailEvents_lateCancel hcut hcanc, List.append_nil]
        refine ⟨?_, hLdrop, ?_, ?_, ?_, ?_⟩
        · rw [hLres, hLerr]; simp
        · intro m hm; exact absurd hm (by simp)
        · intro _ hfalse
          rw [hcanc] at hfalse
          exact absurd hfalse (by decide)
        · intro _ _
          exact ⟨hLres, hLerr⟩
        · intro h; exact absurd h hcut
      · rw [tailEvents_success hcut (by simpa using hcanc)]
        refine ⟨?_, ?_, ?_, ?_, ?_, ?_⟩
        · rw [List.filter_append, List.filter_append, hLres, hLerr,
            List.nil_append, List.nil_append]
          simp [isResult, isError]
        · rw [show [Ev.progress 100, Ev.result pages] =
              [Ev.progress 100] ++ [Ev.result pages] from rfl,
            ← List.append_assoc, List.dropLast_concat]
          intro e he
          rcases List.mem_append.mp he with h | h
          · exact hLterm e h
          · rw [List.mem_singleton] at h
            subst h
            rfl
        · intro m hm; exact absurd hm (by simp)
        · intro _ _
          constructor
          · rw [List.filter_append, hLres, List.nil_append]
            rfl
          · rw [List.filter_append, hLerr, List.nil_append]
            rfl
        · intro _ htrue
          exact absurd htrue hcanc
        · intro h; exact absurd h hcut
    · rw [tailEvents_error m hcut]
      refine ⟨?_, ?_, ?_, ?_, ?_, ?_⟩
      · rw [List.filter_append, List.filter_append, hLres, hLerr,
          List.nil_append, List.nil_append]
        simp [isResult, isError]
      · rw [List.dropLast_concat]
        exact hLterm
      · intro m' hm' _
        obtain rfl : m = m' := by injection hm'
        constructor
        · rw [List.filter_append, hLerr, List.nil_append]
          simp [isError]
        · rw [List.filter_append, hLres, List.nil_append]
          rfl
      · intro he _
        exact absurd he (by simp)
      · intro he _
        exact absurd he (by simp)
      · intro h; exact absurd h hcut

/-- Witness for C2: text `"hi"` with one page and a raised `"x"` gives
exactly one error and no result; the same text with two pages,
uncancelled and exception-free, gives exactly one `resultReady`. -/
theorem spec_C2_witness :
    (WorkerThread.run ['h', 'i'] [10] (some "x") none).filter
      (fun e => isError e) = [Ev.error (transformError "x")]
    ∧ isTerminal (Ev.progress 50) = false
    ∧ (WorkerThread.run ['h', 'i'] [10, 20] none none).filter
      (fun e => isResult e) = [Ev.result [10, 20]] := by
  have h := spec_C2 ['h', 'i'] [10] (some "x") none
  have h2 := spec_C2 ['h', 'i'] [10, 20] none none
  refine ⟨(h.2.2.1 "x" rfl (fun i _ => rfl)).1, ?_, (h2.2.2.2.1 rfl rfl).1⟩
  exact h.2.1 (Ev.progress 50) (by decide)

/-- C3: if the cancellation flag is set before the task checks it at a
page boundary — i.e. it is observed at the `k`-th top-of-loop read with
`k < pages.length` — the run consists of exactly the `k` progress
emissions of the already-completed iterations: no `resultReady`, no error,
and no further progress, regardless of how many pages were already
appended to the internal result list. -/
theorem spec_C3 (text : List Char) (pages : List Page) (exn : Option String)
    (k : Nat) (hk : k < pages.length) :
    WorkerThread.run text pages exn (some k) =
      (List.range k).map
        (fun i => Ev.progress
          (progVal ((i + 1) * progressStep (effText text).length)
            (effText text).length))
    ∧ (∀ r, Ev.result r ∉ WorkerThread.run text pages exn (some k))
    ∧ (progressValues (WorkerThread.run text pages exn (some k))).length = k := by
  have hcut : cutoff (some k) 0 pages.length = k := by
    simp [cutoff_some, Nat.min_eq_left (Nat.le_of_lt hk)]
  have h := run_eq' text pages exn (some k)
  rw [hcut, tailEvents_broken exn (by rw [hcut]; exact hk), List.append_nil]
    at h
  refine ⟨h, ?_, ?_⟩
  · intro r hr
    rw [h] at hr
    obtain ⟨v, hv, -⟩ := mem_loopPart_progress hr
    exact absurd hv (by simp)
  · rw [h, progressValues_map_progress]
    simp

/-- Witness for C3: text `"hi"`, two pages, `cancel()` lands before the
second top-of-loop read — one progress emission, no result. -/
theorem spec_C3_witness :
    Ev.result [10, 20] ∉ WorkerThread.run ['h', 'i'] [10, 20] none (some 1)
    ∧ (progressValues
        (WorkerThread.run ['h', 'i'] [10, 20] none (some 1))).length = 1 := by
  have h := spec_C3 ['h', 'i'] [10, 20] none 1 (by decide)
  exact ⟨h.2.1 [10, 20], h.2.2⟩

/-- C6: when the generator raises message `m` during page production (the
loop was not broken by cancellation first), the run ends with exactly one
`errorOccurred` emission; its message is the fixed clarified diagnostic if
`m` contains both `"font.size"` and `"line_spacing"`, and `m` itself,
unchanged, otherwise. -/
theorem spec_C6 (text : List Char) (pages : List Page) (cancelAt : Option Nat)
    (m : String)
    (h : ∀ i, i < pages.length → isCancelled cancelAt i = false) :
    (WorkerThread.run text pages (some m) cancelAt).filter
      (fun e => isError e) = [Ev.error (transformError m)]
    ∧ ((containsSub "font.size".toList m.toList &&
        containsSub "line_spacing".toList m.toList) = true →
        (WorkerThread.run text pages (some m) cancelAt).getLast? =
          some (Ev.error clarifiedMsg))
    ∧ ((containsSub "font.size".toList m.toList &&
        containsSub "line_spacing".toList m.toList) = false →
        (WorkerThread.run text pages (some m) cancelAt).getLast? =
          some (Ev.error m)) := by
  have hfull : cutoff cancelAt 0 pages.length = pages.length :=
    cutoff_full cancelAt pages.length h
  have hrun := run_eq' text pages (some m) cancelAt
  rw [tailEvents_error m (by rw [hfull]; exact Nat.lt_irrefl _)] at hrun
  refine ⟨?_, ?_, ?_⟩
  · rw [hrun, List.filter_append]
    have hL : ((List.range (cutoff cancelAt 0 pages.length)).map
        (fun i => Ev.progress
          (progVal ((i + 1) * progressStep (effText text).length)
            (effText text).length))).filter (fun e => isError e) = [] := by
      rw [List.filter_eq_nil_iff]
      intro e he
      obtain ⟨v, rfl, -⟩ := mem_loopPart_progress he
      simp [isError]
    rw [hL, List.nil_append]
    simp [isError]
  · intro hpat
    rw [hrun, List.getLast?_concat]
    rw [transformError, if_pos hpat]
  · intro hpat
    rw [hrun, List.getLast?_concat]
    have hcond : ¬((containsSub "font.size".toList m.toList &&
        containsSub "line_spacing".toList m.toList) = true) := by
      rw [hpat]
      decide
    rw [transformError, if_neg hcond]

/-- Witness for C6: a message matching the pattern is clarified, a message
not matching it is forwarded verbatim. -/
theorem spec_C6_witness :
    (WorkerThread.run ['h', 'i'] []
        (some "font.size must not exceed line_spacing") none).getLast? =
      some (Ev.error clarifiedMsg)
    ∧ (WorkerThread.run ['h', 'i'] [] (some "boom") none).getLast? =
      some (Ev.error "boom") := by
  refine ⟨?_, ?_⟩
  · exact (spec_C6 ['h', 'i'] [] none "font.size must not exceed line_spacing"
      (fun i _ => rfl)).2.1 (by decide)
  · exact (spec_C6 ['h', 'i'] [] none "boom"
      (fun i _ => rfl)).2.2 (by decide)

/-- C7: empty input text is replaced by the fixed non-empty placeholder
before the renderer is invoked (in the embedding, `WorkerThread.run` hands
`effText text` to the renderer, cf. line 146); non-empty text is passed
unchanged, so the renderer never receives empty text. -/
theorem spec_C7 (text : List Char) :
    effText text ≠ []
    ∧ (text = [] → effText text = placeholderText)
    ∧ (text ≠ [] → effText text = text)
    ∧ placeholderText ≠ [] := by
  refine ⟨?_, ?_, ?_, by decide⟩
  · intro h
    have := effText_length_pos text
    rw [h] at this
    simp at this
  · intro h
    simp [effText, h]
  · intro h
    simp [effText, h]

/-- Witness for C7: the placeholder substitution at empty input, identity
at `"a"`. -/
theorem spec_C7_witness :
    effText [] = placeholderText ∧ effText ['a'] = ['a'] :=
  ⟨(spec_C7 []).2.1 rfl, (spec_C7 ['a']).2.2.1 (by decide)⟩

/-- C4 counterexample: a task that completes uncancelled with zero pages
DOES deliver a `resultReady` notification, carrying the empty page list —
the worker itself emits no "no output produced" error. -/
theorem spec_C4_counterexample :
    WorkerThread.run ['h', 'i'] [] none none =
      [Ev.progress 100, Ev.result []]
    ∧ Ev.result [] ∈ WorkerThread.run ['h', 'i'] [] none none := by
  decide

/-- C4 amended: on uncancelled completion with zero pages the worker emits
`resultReady` with the empty page list; the preview consumer
(`handle_preview_result`) then routes that empty result to the error
handler with the fixed "no preview produced" message instead of accepting
it, and accepts a delivered result exactly when it is non-empty. -/
theorem spec_C4 (text : List Char) (cancelAt : Option Nat)
    (h : isCancelled cancelAt 0 = false) :
    WorkerThread.run text [] none cancelAt =
      [Ev.progress 100, Ev.result []]
    ∧ handle_preview_result [] =
        PreviewOutcome.errored "未能生成预览图像，可能是参数设置不合理"
    ∧ (∀ images : List Page, images ≠ [] →
        handle_preview_result images = PreviewOutcome.accepted images) := by
  refine ⟨?_, rfl, ?_⟩
  · have hcut0 : cutoff cancelAt 0 0 = 0 := by
      cases cancelAt <;> simp [cutoff_none, cutoff_some]
    have hrun := run_eq' text [] none cancelAt
    rw [tailEvents_success (Nat.not_lt_zero _) (by simpa using h)] at hrun
    rw [List.length_nil, hcut0] at hrun
    simpa using hrun
  · intro images himg
    simp [handle_preview_result, himg]

/-- Witness for C4's amended statement at a concrete uncancelled run. -/
theorem spec_C4_witness :
    WorkerThread.run ['a'] [] none none = [Ev.progress 100, Ev.result []]
    ∧ handle_preview_result [5] = PreviewOutcome.accepted [5] := by
  have h := spec_C4 ['a'] none rfl
  exact ⟨h.1, h.2.2 [5] (by decide)⟩

/-- C5 counterexample: submitting an export render while a previous worker
is still running leaves that worker running and uncancelled
(`is_cancelled = false`) while a second running worker starts — the
claimed cancel-before-create invariant does not hold on the
`export_image` path. -/
theorem spec_C5_counterexample :
    (export_image_submit (some { running := true, is_cancelled := false })).1 =
      some { running := true, is_cancelled := false }
    ∧ (export_image_submit
        (some { running := true, is_cancelled := false })).2.running = true := by
  decide

/-- C5 amended: on the preview path (`PreviewWidget.update_preview`) a
running previous worker has its cancellation flag set before the new
worker is created and started; on the export path
(`MainWindow.export_image`) the previous worker is left untouched — no
cancellation signal — so two running tasks are possible there. -/
theorem spec_C5 (prev : Option Worker) :
    (∀ w, prev = some w → w.running = true →
      (update_preview prev).1 = some { w with is_cancelled := true })
    ∧ (update_preview prev).2 = { running := true, is_cancelled := false }
    ∧ (export_image_submit prev).1 = prev := by
  refine ⟨?_, rfl, rfl⟩
  intro w hw hr
  subst hw
  simp [update_preview, update_preview_oldWorker, hr]

/-- Witness for C5's amended statement: a running uncancelled worker gets
its flag set by the preview path. -/
theorem spec_C5_witness :
    (update_preview (some { running := true, is_cancelled := false })).1 =
      some { running := true, is_cancelled := true } :=
  (spec_C5 (some { running := true, is_cancelled := false })).1
    { running := true, is_cancelled := false } rfl rfl

theorem reachable_inv {pm : PreviewManager} (h : PreviewManager.Reachable pm) :
    PMInv pm := by
  induction h with
  | init => exact Or.inl ⟨rfl, rfl⟩
  | set_pages pm ps _ _ =>
    cases ps with
    | nil => exact Or.inl ⟨rfl, rfl⟩
    | cons a l =>
      right
      simp [PreviewManager.set_pages]
  | next_page pm _ ih =>
    rw [PreviewManager.next_page]
    split
    · next hlt =>
      right
      simp only
      omega
    · exact ih
  | prev_page pm _ ih =>
    rw [PreviewManager.prev_page]
    split
    · next hlt =>
      rcases ih with ⟨hp, hc⟩ | hc
      · omega
      · right
        simp only
        omega
    · exact ih
  | go_to_page pm n _ ih =>
    rw [PreviewManager.go_to_page]
    split
    · next hin =>
      right
      simp only
      omega
    · exact ih

/-- C8 counterexample: on the reachable state with one page and index 0,
`go_to_page 0` returns `True` yet does not change `current_page` (nor any
other state), refuting "go_to_page returns True exactly when it changes
current_page". -/
theorem spec_C8_counterexample :
    (PreviewManager.go_to_page
      (PreviewManager.set_pages PreviewManager.init [7]) 0).2 = true
    ∧ (PreviewManager.go_to_page
        (PreviewManager.set_pages PreviewManager.init [7]) 0).1 =
      PreviewManager.set_pages PreviewManager.init [7]
    ∧ PreviewManager.Reachable
        (PreviewManager.set_pages PreviewManager.init [7]) := by
  refine ⟨by decide, by decide, ?_⟩
  exact PreviewManager.Reachable.set_pages _ _ PreviewManager.Reachable.init

/-- C8 amended: on every reachable state, `current_page` stays in
`[0, len(pages)-1]` whenever `pages` is non-empty, `get_current_page`
returns `pages[current_page]` exactly then (and `None` exactly on the
empty list); `next_page` and `prev_page` return `True` exactly when they
change `current_page`; `go_to_page n` returns `True` exactly when `n` is
in range — even when `n` equals the current index, in which case the
state is unchanged — and every `False` return leaves the state
unchanged. -/
theorem spec_C8 (pm : PreviewManager) (h : PreviewManager.Reachable pm) :
    ((pm.pages = [] ∧ pm.current_page = 0) ∨
      pm.current_page < pm.pages.length)
    ∧ (pm.get_current_page = none ↔ pm.pages = [])
    ∧ (pm.pages ≠ [] → ∃ hlt : pm.current_page < pm.pages.length,
        pm.get_current_page = some (pm.pages.get ⟨pm.current_page, hlt⟩))
    ∧ (pm.next_page.2 = true ↔ pm.next_page.1.current_page ≠ pm.current_page)
    ∧ (pm.next_page.2 = false → pm.next_page.1 = pm)
    ∧ (pm.prev_page.2 = true ↔ pm.prev_page.1.current_page ≠ pm.current_page)
    ∧ (pm.prev_page.2 = false → pm.prev_page.1 = pm)
    ∧ (∀ n : Int,
        ((pm.go_to_page n).2 = true ↔ 0 ≤ n ∧ n < pm.pages.length)
        ∧ ((pm.go_to_page n).2 = true →
            (pm.go_to_page n).1.current_page = n.toNat)
        ∧ ((pm.go_to_page n).2 = false → (pm.go_to_page n).1 = pm)) := by
  have hinv := reachable_inv h
  refine ⟨hinv, ?_, ?_, ?_, ?_, ?_, ?_, ?_⟩
  · rw [PreviewManager.get_current_page]
    split
    · next he => simpa [List.isEmpty_iff] using he
    · next he =>
      simp only [List.isEmpty_iff] at he
      simp [he]
  · intro hne
    have hlt : pm.current_page < pm.pages.length := by
      rcases hinv with ⟨hp, -⟩ | hlt
      · exact absurd hp hne
      · exact hlt
    refine ⟨hlt, ?_⟩
    rw [PreviewManager.get_current_page,
      if_neg (by simp [List.isEmpty_iff, hne])]
    rw [List.getD_eq_getElem _ _ hlt]
    simp
  · rw [PreviewManager.next_page]
    split
    · next hlt =>
      constructor
      · intro _
        show pm.current_page + 1 ≠ pm.current_page
        omega
      · intro _
        rfl
    · simp
  · rw [PreviewManager.next_page]
    split
    · simp
    · intro; rfl
  · rw [PreviewManager.prev_page]
    split
    · next hpos =>
      constructor
      · intro _
        show pm.current_page - 1 ≠ pm.current_page
        omega
      · intro _
        rfl
    · simp
  · rw [PreviewManager.prev_page]
    split
    · simp
    · intro; rfl
  · intro n
    rw [PreviewManager.go_to_page]
    split
    · next hin =>
      exact ⟨by simp [hin], fun _ => rfl, by simp⟩
    · next hin =>
      exact ⟨by simpa using hin, by simp, fun _ => rfl⟩

/-- Witness for C8's amended statement on the concrete reachable state
with two pages at index 0. -/
theorem spec_C8_witness :
    ((PreviewManager.set_pages PreviewManager.init [3, 4]).next_page.2 = true ↔
      (PreviewManager.set_pages
        PreviewManager.init [3, 4]).next_page.1.current_page ≠
        (PreviewManager.set_pages PreviewManager.init [3, 4]).current_page)
    ∧ ((PreviewManager.set_pages PreviewManager.init [3, 4]).go_to_page 5).1 =
        PreviewManager.set_pages PreviewManager.init [3, 4] := by
  have h := spec_C8 (PreviewManager.set_pages PreviewManager.init [3, 4])
    (PreviewManager.Reachable.set_pages _ _ PreviewManager.Reachable.init)
  exact ⟨h.2.2.2.1, (h.2.2.2.2.2.2.2 5).2.2 (by decide)⟩

/-- C9: `create_template` replaces the configured line spacing with
`int(font_size * 1.5)` whenever line spacing ≤ font size, and the
`Template` handed to the renderer therefore has
`line_spacing > font_size` for every `font_size ≥ 2`; at `font_size = 1`
the adjusted value `int(1 * 1.5) = 1` is not greater. -/
theorem spec_C9 (font_size line_spacing : Nat) (h : 2 ≤ font_size) :
    font_size < adjust_line_spacing font_size line_spacing
    ∧ (line_spacing ≤ font_size →
        adjust_line_spacing font_size line_spacing = 3 * font_size / 2)
    ∧ (font_size < line_spacing →
        adjust_line_spacing font_size line_spacing = line_spacing)
    ∧ adjust_line_spacing 1 1 = 1 := by
  refine ⟨?_, ?_, ?_, rfl⟩
  · rw [adjust_line_spacing]
    split
    · omega
    · next hgt => omega
  · intro hle
    rw [adjust_line_spacing, if_pos hle]
  · intro hgt
    rw [adjust_line_spacing, if_neg (by omega)]

/-- Witness for C9 at `font_size = 2`, `line_spacing = 2`: the adjusted
spacing `3` exceeds the font size. -/
theorem spec_C9_witness :
    2 < adjust_line_spacing 2 2 ∧ adjust_line_spacing 1 1 = 1 :=
  ⟨(spec_C9 2 2 (by decide)).1, (spec_C9 2 2 (by decide)).2.2.2⟩

end HandwriteApp
